import Mathlib

/-!
# The `clean` command of yba-installer

Source: `managed/yba-installer/cmd/clean.go`.

The command handler walks the package-level service registry
(`serviceOrder`, `services`) from the last index down to the first, calls
`Uninstall(removeData)` and `Name()` on every service handle, and ends with one
call of `common.Uninstall(serviceNames, removeData)`.

The collaborators (`Uninstall`, `Name`, `common.Uninstall`) live outside this
file of the repository.  They are observed through the sequence of operations
the handler performs (a trace); `Name()` is a function of the handle.  The
handle type `H` and the function `Name : H → String` are parameters, and so is
the registry, whose declaration lives elsewhere as well.  The collaborators are
taken to return and not to write the registry.
-/

namespace YbaInstaller

/-- Service identifiers: the element type of `serviceOrder` and the key type of
`services`. -/
abbrev ServiceId := String

/-- One operation performed by the handler, in program order. -/
inductive Event (H : Type) where
  /-- The index expression `serviceOrder[i]`. -/
  | orderIndex (i : Int)
  /-- The map read `services[id]`. -/
  | servicesLookup (id : ServiceId)
  /-- The call `h.Uninstall(removeData)` on a service handle. -/
  | serviceUninstall (h : H) (removeData : Bool)
  /-- The call `h.Name()` on a service handle. -/
  | serviceName (h : H)
  /-- The call `common.Uninstall(serviceNames, removeData)`. -/
  | commonUninstall (serviceNames : List String) (removeData : Bool)
  deriving DecidableEq, Repr

/-- Run-time faults of the Go code. -/
inductive Fault where
  /-- The index `i` is outside `0 .. len-1` in `serviceOrder[i]`. -/
  | indexOutOfRange (i : Int) (len : Nat)
  /-- A method is called on the nil interface value that `services[id]` yields
  for an identifier without a handle. -/
  | nilDereference (id : ServiceId)
  deriving DecidableEq, Repr

/-- The package-level registry together with what has been observed so far.
`services id = none` stands for the zero value (nil interface) that a Go map
read yields when `id` has no handle.  `iterations` counts completed executions
of the loop body. -/
structure World (H : Type) where
  serviceOrder : List ServiceId
  services : ServiceId → Option H
  trace : List (Event H)
  iterations : Nat

/-- Result of running a piece of the handler. -/
inductive Outcome (H α : Type) where
  | returned (a : α) (w : World H)
  | panicked (f : Fault) (w : World H)
  | outOfFuel (w : World H)

/-- The world an outcome ends in. -/
def Outcome.world {H α : Type} : Outcome H α → World H
  | .returned _ w => w
  | .panicked _ w => w
  | .outOfFuel w => w

/-- Whether the code returned normally. -/
def Outcome.isReturned {H α : Type} : Outcome H α → Bool
  | .returned _ _ => true
  | _ => false

/-- A piece of code acting on the world. -/
abbrev Prog (H α : Type) := World H → Outcome H α

/-- Sequencing: a panic in the first part skips the second. -/
def Prog.andThen {H α β : Type} (p : Prog H α) (k : α → Prog H β) : Prog H β :=
  fun w =>
    match p w with
    | .returned a w1 => k a w1
    | .panicked f w1 => .panicked f w1
    | .outOfFuel w1 => .outOfFuel w1

/-- Appends an operation to the trace. -/
def World.emit {H : Type} (w : World H) (e : Event H) : World H :=
  { w with trace := w.trace ++ [e] }

/-- The index expression `serviceOrder[i]` with its bounds check. -/
def indexServiceOrder {H : Type} (i : Int) : Prog H ServiceId :=
  fun w =>
    let w1 := w.emit (.orderIndex i)
    if 0 ≤ i then
      match w.serviceOrder[i.toNat]? with
      | some id => .returned id w1
      | none => .panicked (.indexOutOfRange i w.serviceOrder.length) w1
    else .panicked (.indexOutOfRange i w.serviceOrder.length) w1

/-- The map read `services[id]`: never panics, yields `none` (nil) for an
identifier without a handle. -/
def servicesAt {H : Type} (id : ServiceId) : Prog H (Option H) :=
  fun w => .returned (w.services id) (w.emit (.servicesLookup id))

/-- The method call `recv.Uninstall(removeData)`; `id` is the key `recv` was
read from. -/
def callUninstall {H : Type} (id : ServiceId) (recv : Option H) (removeData : Bool) :
    Prog H Unit :=
  fun w =>
    match recv with
    | some h => .returned () (w.emit (.serviceUninstall h removeData))
    | none => .panicked (.nilDereference id) w

/-- The method call `recv.Name()`. -/
def callName {H : Type} (Name : H → String) (id : ServiceId) (recv : Option H) :
    Prog H String :=
  fun w =>
    match recv with
    | some h => .returned (Name h) (w.emit (.serviceName h))
    | none => .panicked (.nilDereference id) w

/-- Local variables of `Run`. -/
structure Frame where
  i : Int
  serviceNames : List String
  deriving DecidableEq, Repr

/-- The loop body (lines 23-24):
```
services[serviceOrder[i]].Uninstall(removeData)
serviceNames = append(serviceNames, services[serviceOrder[i]].Name())
```
-/
def loopBody {H : Type} (Name : H → String) (removeData : Bool) (fr : Frame) :
    Prog H Frame :=
  (indexServiceOrder fr.i).andThen fun id =>
  (servicesAt id).andThen fun recv =>
  (callUninstall id recv removeData).andThen fun _ =>
  (indexServiceOrder fr.i).andThen fun id2 =>
  (servicesAt id2).andThen fun recv2 =>
  (callName Name id2 recv2).andThen fun nm =>
  fun w => .returned { fr with serviceNames := fr.serviceNames ++ [nm] }
    { w with iterations := w.iterations + 1 }

/-- The loop `for ...; i >= 0; i-- { body }` (line 22), entered with `i` already
initialised.  Each unit of fuel pays for one evaluation of the condition. -/
def forLoop {H : Type} (Name : H → String) (removeData : Bool) :
    Nat → Frame → Prog H Frame
  | 0, _ => fun w => .outOfFuel w
  | fuel + 1, fr => fun w =>
    if fr.i ≥ 0 then
      match loopBody Name removeData fr w with
      | .returned fr1 w1 => forLoop Name removeData fuel { fr1 with i := fr1.i - 1 } w1
      | .panicked f w1 => .panicked f w1
      | .outOfFuel w1 => .outOfFuel w1
    else .returned fr w

/-- The `Run` function of the command (lines 17-28).  `removeData` is the
variable the closure captures; `args` are the positional arguments.  The loop
starts at `i = len(serviceOrder) - 1` and gets `len(serviceOrder) + 1` units of
fuel, one for each evaluation of its condition (`Run_not_outOfFuel`). -/
def Run {H : Type} (Name : H → String) (removeData : Bool) (_args : List String) :
    Prog H Unit :=
  fun w =>
    let fr0 : Frame := { i := (w.serviceOrder.length : Int) - 1, serviceNames := [] }
    match forLoop Name removeData (w.serviceOrder.length + 1) fr0 w with
    | .returned fr w1 => .returned () (w1.emit (.commonUninstall fr.serviceNames removeData))
    | .panicked f w1 => .panicked f w1
    | .outOfFuel w1 => .outOfFuel w1

/-! ## The command-line layer -/

/-- Errors of the command-line layer. -/
inductive CliError where
  | tooManyArgs (max received : Nat)
  deriving DecidableEq, Repr

/-- Modelled from the spec: the validator `cobra.MaximumNArgs(n)` of the cobra
library, which is not part of the repository sources.  It fails with an
argument-count error when more than `n` positional arguments are given. -/
def MaximumNArgs (n : Nat) (args : List String) : Except CliError Unit :=
  if args.length > n then .error (.tooManyArgs n args.length) else .ok ()

/-- The fields of `cobra.Command` that the handler sets, and the flag it
registers. -/
structure Command (H : Type) where
  Use : String
  Args : List String → Except CliError Unit
  /-- The default given to `Flags().BoolVar(&removeData, "all", ...)`. -/
  allDefault : Bool
  /-- The `Run` closure, as a function of the captured `removeData`. -/
  Run : Bool → List String → Prog H Unit

/-- The function `cleanCmd` (lines 8-32). -/
def cleanCmd {H : Type} (Name : H → String) : Command H :=
  { Use := "clean"
    Args := MaximumNArgs 1
    allDefault := false
    Run := fun removeData args => Run Name removeData args }

/-- A parsed command line: the positional arguments and the value given to
`--all`, `none` when the flag does not occur. -/
structure Invocation where
  args : List String
  all : Option Bool
  deriving DecidableEq, Repr

/-- What an invocation of a command amounts to. -/
inductive CmdResult (H : Type) where
  /-- The arguments were refused; the world is as before. -/
  | rejected (e : CliError) (w : World H)
  /-- The `Run` closure was executed. -/
  | ran (o : Outcome H Unit)

/-- The world an invocation ends in. -/
def CmdResult.world {H : Type} : CmdResult H → World H
  | .rejected _ w => w
  | .ran o => o.world

/-- Modelled from the spec: the dispatch of the cobra library, which is not part
of the repository sources.  The flag variable holds its default unless the flag
is given; the positional arguments are validated; `Run` is executed only when
validation succeeds. -/
def execute {H : Type} (c : Command H) (inv : Invocation) (w : World H) : CmdResult H :=
  let removeData := inv.all.getD c.allDefault
  match c.Args inv.args with
  | .error e => .rejected e w
  | .ok _ => .ran (c.Run removeData inv.args w)

/-! ## Observations on traces -/

/-- The handle of a per-service `Uninstall` call. -/
def Event.uninstallTarget {H : Type} : Event H → Option H
  | .serviceUninstall h _ => some h
  | _ => none

/-- The name list of a `common.Uninstall` call. -/
def Event.finalizeNames {H : Type} : Event H → Option (List String)
  | .commonUninstall ns _ => some ns
  | _ => none

/-- The `removeData` argument of a call that takes one. -/
def Event.removeDataArg {H : Type} : Event H → Option Bool
  | .serviceUninstall _ b => some b
  | .commonUninstall _ b => some b
  | _ => none

/-- Whether the operation is a call of `common.Uninstall`. -/
def Event.isFinalize {H : Type} : Event H → Bool
  | .commonUninstall _ _ => true
  | _ => false

/-- Whether the operation is a call on a service handle. -/
def Event.isServiceCall {H : Type} : Event H → Bool
  | .serviceUninstall _ _ => true
  | .serviceName _ => true
  | _ => false

/-- Whether the operation reads the registry. -/
def Event.isRegistryRead {H : Type} : Event H → Bool
  | .orderIndex _ => true
  | .servicesLookup _ => true
  | _ => false

/-- The registry invariant of the data model: every identifier of
`serviceOrder` has a handle in `services`. -/
def World.wellFormed {H : Type} (w : World H) : Prop :=
  ∀ id ∈ w.serviceOrder, (w.services id).isSome = true

instance {H : Type} (w : World H) : Decidable w.wellFormed := by
  unfold World.wellFormed; infer_instance

/-- What a run added to the trace of the world it started in. -/
def issued {H : Type} (before after : World H) : List (Event H) :=
  after.trace.drop before.trace.length

/-! ## Concrete registries -/

/-- Handles used in examples. -/
inductive Svc where
  | A | B | C
  deriving DecidableEq, Repr

/-- Display names of the example handles. -/
def Svc.Name : Svc → String
  | .A => "A"
  | .B => "B"
  | .C => "C"

/-- A registry with install order `[A, B, C]`. -/
def abcWorld : World Svc :=
  { serviceOrder := ["a", "b", "c"]
    services := fun id =>
      if id = "a" then some .A else if id = "b" then some .B
      else if id = "c" then some .C else none
    trace := []
    iterations := 0 }

/-- The empty registry. -/
def emptyWorld : World Svc :=
  { serviceOrder := [], services := fun _ => none, trace := [], iterations := 0 }

/-- A registry whose only identifier has no handle. -/
def danglingWorld : World Svc :=
  { serviceOrder := ["a"], services := fun _ => none, trace := [], iterations := 0 }

/-! ## What the loop does on a registry that satisfies the invariant -/

/-- The operations of the loop body at index `j`. -/
def iterationTrace {H : Type} (order : List ServiceId) (services : ServiceId → Option H)
    (b : Bool) (j : Nat) : List (Event H) :=
  match order[j]? with
  | none => []
  | some id =>
    match services id with
    | none => []
    | some h =>
      [.orderIndex j, .servicesLookup id, .serviceUninstall h b,
       .orderIndex j, .servicesLookup id, .serviceName h]

/-- The operations of the iterations at indices `k-1, ..., 0`, in that order. -/
def loopTrace {H : Type} (order : List ServiceId) (services : ServiceId → Option H)
    (b : Bool) : Nat → List (Event H)
  | 0 => []
  | k + 1 => iterationTrace order services b k ++ loopTrace order services b k

/-- The names appended by the iterations at indices `k-1, ..., 0`. -/
def loopNames {H : Type} (Name : H → String) (order : List ServiceId)
    (services : ServiceId → Option H) : Nat → List String
  | 0 => []
  | k + 1 =>
    (order[k]?.bind services).toList.map Name ++ loopNames Name order services k

/-- Whether the operation is one the loop may perform when the flag is `b`: a
registry read, a `Name()` call, or an `Uninstall` call with argument `b`. -/
def Event.fromLoop {H : Type} (b : Bool) : Event H → Bool
  | .orderIndex _ => true
  | .servicesLookup _ => true
  | .serviceUninstall _ b1 => b1 == b
  | .serviceName _ => true
  | .commonUninstall _ _ => false

/-- The code only appends operations satisfying `Q` to the trace and leaves
the registry as it is. -/
def Prog.Emits {H α : Type} (Q : Event H → Prop) (p : Prog H α) : Prop :=
  ∀ w, ∃ t, (p w).world.trace = w.trace ++ t ∧ (∀ e ∈ t, Q e) ∧
    (p w).world.serviceOrder = w.serviceOrder ∧ (p w).world.services = w.services

/-- The same registry with an earlier history `t` and `n` earlier iterations. -/
def World.rebase {H : Type} (w : World H) (t : List (Event H)) (n : Nat) : World H :=
  { w with trace := t ++ w.trace, iterations := n + w.iterations }

/-- An outcome seen after an earlier history. -/
def Outcome.rebase {H α : Type} (o : Outcome H α) (t : List (Event H)) (n : Nat) :
    Outcome H α :=
  match o with
  | .returned a w => .returned a (w.rebase t n)
  | .panicked f w => .panicked f (w.rebase t n)
  | .outOfFuel w => .outOfFuel (w.rebase t n)

/-- The code does not depend on the history: it neither reads the trace nor the
iteration counter. -/
def Prog.Framed {H α : Type} (p : Prog H α) : Prop :=
  ∀ t n w, p (w.rebase t n) = (p w).rebase t n

/-! ## Runs on the concrete registries -/

theorem Run_abcWorld_trace : (Run Svc.Name true [] abcWorld).world.trace =
    [.orderIndex 2, .servicesLookup "c", .serviceUninstall .C true,
     .orderIndex 2, .servicesLookup "c", .serviceName .C,
     .orderIndex 1, .servicesLookup "b", .serviceUninstall .B true,
     .orderIndex 1, .servicesLookup "b", .serviceName .B,
     .orderIndex 0, .servicesLookup "a", .serviceUninstall .A true,
     .orderIndex 0, .servicesLookup "a", .serviceName .A,
     .commonUninstall ["C", "B", "A"] true] := by decide

theorem Run_emptyWorld_trace :
    (Run Svc.Name false [] emptyWorld).world.trace = [.commonUninstall [] false] := by
  decide

/-- On a registry whose identifier has no handle the run stops at the method
call on the nil handle, before `common.Uninstall`. -/
theorem Run_danglingWorld_panics :
    Run Svc.Name false [] danglingWorld =
      .panicked (.nilDereference "a")
        { danglingWorld with trace := [.orderIndex 0, .servicesLookup "a"] } := by
  rfl

theorem abcWorld_wellFormed : abcWorld.wellFormed := by decide

/-! ## Lemmas -/

section Lemmas

variable {H : Type}

theorem loopBody_ok (Name : H → String) (b : Bool) (fr : Frame) (w : World H)
    (k : Nat) (id : ServiceId) (h : H)
    (hi : fr.i = (k : Int)) (hk : w.serviceOrder[k]? = some id)
    (hs : w.services id = some h) :
    loopBody Name b fr w =
      .returned { fr with serviceNames := fr.serviceNames ++ [Name h] }
        { w with
          trace := w.trace ++
            [.orderIndex k, .servicesLookup id, .serviceUninstall h b,
             .orderIndex k, .servicesLookup id, .serviceName h]
          iterations := w.iterations + 1 } := by
  simp [loopBody, Prog.andThen, indexServiceOrder, servicesAt, callUninstall, callName,
    World.emit, hi, hk, hs]

theorem forLoop_spec (Name : H → String) (b : Bool) :
    ∀ (k fuel : Nat) (fr : Frame) (w : World H), w.wellFormed →
      k ≤ w.serviceOrder.length → fr.i = (k : Int) - 1 → k < fuel →
      forLoop Name b fuel fr w =
        .returned ⟨-1, fr.serviceNames ++ loopNames Name w.serviceOrder w.services k⟩
          { w with
            trace := w.trace ++ loopTrace w.serviceOrder w.services b k
            iterations := w.iterations + k } := by
  intro k
  induction k with
  | zero =>
    intro fuel fr w _ _ hi hf
    obtain ⟨f, rfl⟩ : ∃ f, fuel = f + 1 := ⟨fuel - 1, by omega⟩
    have hi2 : fr.i = -1 := by simpa using hi
    cases fr with
    | mk i names =>
      simp only at hi2
      subst hi2
      simp [forLoop, loopNames, loopTrace]
  | succ k ih =>
    intro fuel fr w hw hk hi hf
    obtain ⟨f, rfl⟩ : ∃ f, fuel = f + 1 := ⟨fuel - 1, by omega⟩
    have hi2 : fr.i = (k : Int) := by rw [hi]; push_cast; ring
    have hlt : k < w.serviceOrder.length := by omega
    obtain ⟨id, hid⟩ : ∃ id, w.serviceOrder[k]? = some id :=
      ⟨w.serviceOrder[k], List.getElem?_eq_getElem hlt⟩
    have hmem : id ∈ w.serviceOrder := List.mem_iff_getElem?.mpr ⟨k, hid⟩
    obtain ⟨h, hh⟩ : ∃ h, w.services id = some h := Option.isSome_iff_exists.mp (hw id hmem)
    have hge : fr.i ≥ 0 := by rw [hi2]; exact Int.natCast_nonneg k
    rw [forLoop]
    simp only [hge, if_true]
    rw [loopBody_ok Name b fr w k id h hi2 hid hh]
    simp only
    have step := ih f { i := fr.i - 1, serviceNames := fr.serviceNames ++ [Name h] }
      { w with
        trace := w.trace ++
          [.orderIndex k, .servicesLookup id, .serviceUninstall h b,
           .orderIndex k, .servicesLookup id, .serviceName h]
        iterations := w.iterations + 1 }
      hw (Nat.le_of_lt hlt) (by simp [hi2]) (by omega)
    rw [step]
    simp [loopNames, loopTrace, iterationTrace, hid, hh, Nat.add_comm, Nat.add_left_comm]

theorem Run_spec (Name : H → String) (b : Bool) (args : List String) (w : World H)
    (hw : w.wellFormed) :
    Run Name b args w =
      .returned ()
        { w with
          trace := w.trace ++ (loopTrace w.serviceOrder w.services b w.serviceOrder.length ++
            [.commonUninstall (loopNames Name w.serviceOrder w.services w.serviceOrder.length) b])
          iterations := w.iterations + w.serviceOrder.length } := by
  unfold Run
  simp only
  rw [forLoop_spec Name b w.serviceOrder.length (w.serviceOrder.length + 1) _ w hw
    (Nat.le_refl _) rfl (Nat.lt_succ_self _)]
  simp [World.emit]

theorem iterationTrace_targets (order : List ServiceId) (services : ServiceId → Option H)
    (b : Bool) (j : Nat) :
    (iterationTrace order services b j).filterMap Event.uninstallTarget =
      order[j]?.toList.filterMap services := by
  unfold iterationTrace
  cases hj : order[j]? with
  | none => simp
  | some id =>
    cases hs : services id with
    | none => simp [hs]
    | some h => simp [hs, Event.uninstallTarget]

theorem loopTrace_targets (order : List ServiceId) (services : ServiceId → Option H)
    (b : Bool) (k : Nat) :
    (loopTrace order services b k).filterMap Event.uninstallTarget =
      (order.take k).reverse.filterMap services := by
  induction k with
  | zero => simp [loopTrace]
  | succ k ih =>
    simp only [loopTrace, List.take_succ, List.filterMap_append, ih, iterationTrace_targets,
      List.reverse_append]
    congr 1
    cases order[k]? with
    | none => simp
    | some id => simp

theorem loopNames_eq (Name : H → String) (order : List ServiceId)
    (services : ServiceId → Option H) (k : Nat) :
    loopNames Name order services k =
      ((order.take k).reverse.filterMap services).map Name := by
  induction k with
  | zero => simp [loopNames]
  | succ k ih =>
    simp only [loopNames, List.take_succ, List.reverse_append, List.filterMap_append,
      List.map_append, ih]
    congr 1
    cases order[k]? with
    | none => simp
    | some id => cases hs : services id <;> simp [hs]

theorem filterMap_map_some_of_forall {α β : Type} (f : α → Option β) (l : List α)
    (hl : ∀ a ∈ l, (f a).isSome = true) : (l.filterMap f).map some = l.map f := by
  induction l with
  | nil => rfl
  | cons a l ih =>
    have ha : (f a).isSome = true := hl a (List.mem_cons_self a l)
    obtain ⟨v, hv⟩ := Option.isSome_iff_exists.mp ha
    have ih2 := ih (fun x hx => hl x (List.mem_cons_of_mem a hx))
    simp [List.filterMap_cons, hv, ih2]

theorem mem_loopTrace (order : List ServiceId) (services : ServiceId → Option H)
    (b : Bool) (k : Nat) (e : Event H) (he : e ∈ loopTrace order services b k) :
    ∃ (j : Nat) (id : ServiceId) (h : H), j < k ∧ order[j]? = some id ∧ services id = some h ∧
      e ∈ [Event.orderIndex (j : Int), .servicesLookup id, .serviceUninstall h b,
           .serviceName h] := by
  induction k with
  | zero => simp [loopTrace] at he
  | succ k ih =>
    simp only [loopTrace, List.mem_append] at he
    rcases he with he | he
    · unfold iterationTrace at he
      cases hj : order[k]? with
      | none => simp [hj] at he
      | some id =>
        cases hs : services id with
        | none => simp [hj, hs] at he
        | some h =>
          refine ⟨k, id, h, Nat.lt_succ_self k, hj, hs, ?_⟩
          simp only [hj, hs, List.mem_cons, List.mem_singleton, List.not_mem_nil,
            or_false] at he
          simp only [List.mem_cons, List.mem_singleton, List.not_mem_nil, or_false]
          tauto
    · obtain ⟨j, id, h, hj, r⟩ := ih he
      exact ⟨j, id, h, Nat.lt_succ_of_lt hj, r⟩

/-! ### Every run, whatever the registry -/

theorem emits_andThen {α β : Type} (Q : Event H → Prop) (p : Prog H α) (k : α → Prog H β)
    (hp : p.Emits Q) (hk : ∀ a, (k a).Emits Q) : (p.andThen k).Emits Q := by
  intro w
  obtain ⟨t1, h1, h2, h3, h4⟩ := hp w
  unfold Prog.andThen
  cases hpw : p w with
  | returned a w1 =>
    rw [hpw] at h1 h3 h4
    simp only [Outcome.world] at h1 h3 h4
    obtain ⟨t2, g1, g2, g3, g4⟩ := hk a w1
    refine ⟨t1 ++ t2, ?_, ?_, ?_, ?_⟩
    · simp only [g1, h1, List.append_assoc]
    · intro e he
      rcases List.mem_append.mp he with he | he
      · exact h2 e he
      · exact g2 e he
    · simp only [g3, h3]
    · simp only [g4, h4]
  | panicked f w1 =>
    rw [hpw] at h1 h3 h4
    exact ⟨t1, h1, h2, h3, h4⟩
  | outOfFuel w1 =>
    rw [hpw] at h1 h3 h4
    exact ⟨t1, h1, h2, h3, h4⟩

theorem emits_indexServiceOrder (Q : Event H → Prop) (i : Int) (hQ : Q (.orderIndex i)) :
    (indexServiceOrder i : Prog H ServiceId).Emits Q := by
  intro w
  refine ⟨[.orderIndex i], ?_, ?_, ?_, ?_⟩
  · unfold indexServiceOrder; simp only; split_ifs
    · split <;> rfl
    · rfl
  · intro e he; rw [List.mem_singleton.mp he]; exact hQ
  · unfold indexServiceOrder; simp only; split_ifs
    · split <;> rfl
    · rfl
  · unfold indexServiceOrder; simp only; split_ifs
    · split <;> rfl
    · rfl

theorem emits_servicesAt (Q : Event H → Prop) (id : ServiceId) (hQ : Q (.servicesLookup id)) :
    (servicesAt id : Prog H (Option H)).Emits Q := by
  intro w
  refine ⟨[.servicesLookup id], rfl, ?_, rfl, rfl⟩
  intro e he; rw [List.mem_singleton.mp he]; exact hQ

theorem emits_callUninstall (Q : Event H → Prop) (id : ServiceId) (recv : Option H) (b : Bool)
    (hQ : ∀ h, Q (.serviceUninstall h b)) :
    (callUninstall id recv b : Prog H Unit).Emits Q := by
  intro w
  cases recv with
  | none => exact ⟨[], by simp [callUninstall, Outcome.world], by simp, rfl, rfl⟩
  | some h =>
    refine ⟨[.serviceUninstall h b], rfl, ?_, rfl, rfl⟩
    intro e he; rw [List.mem_singleton.mp he]; exact hQ h

theorem emits_callName (Q : Event H → Prop) (Name : H → String) (id : ServiceId)
    (recv : Option H) (hQ : ∀ h, Q (.serviceName h)) :
    (callName Name id recv : Prog H String).Emits Q := by
  intro w
  cases recv with
  | none => exact ⟨[], by simp [callName, Outcome.world], by simp, rfl, rfl⟩
  | some h =>
    refine ⟨[.serviceName h], rfl, ?_, rfl, rfl⟩
    intro e he; rw [List.mem_singleton.mp he]; exact hQ h

theorem emits_loopBody (Name : H → String) (b : Bool) (fr : Frame) :
    (loopBody Name b fr : Prog H Frame).Emits (fun e => e.fromLoop b = true) := by
  unfold loopBody
  refine emits_andThen _ _ _ (emits_indexServiceOrder _ _ rfl) fun id => ?_
  refine emits_andThen _ _ _ (emits_servicesAt _ _ rfl) fun recv => ?_
  refine emits_andThen _ _ _ (emits_callUninstall _ _ _ _ fun h => by simp [Event.fromLoop])
    fun _ => ?_
  refine emits_andThen _ _ _ (emits_indexServiceOrder _ _ rfl) fun id2 => ?_
  refine emits_andThen _ _ _ (emits_servicesAt _ _ rfl) fun recv2 => ?_
  refine emits_andThen _ _ _ (emits_callName _ _ _ _ fun h => rfl) fun nm => ?_
  intro w
  exact ⟨[], by simp [Outcome.world], by simp, rfl, rfl⟩

theorem emits_forLoop (Name : H → String) (b : Bool) :
    ∀ (fuel : Nat) (fr : Frame),
      (forLoop Name b fuel fr : Prog H Frame).Emits (fun e => e.fromLoop b = true) := by
  intro fuel
  induction fuel with
  | zero =>
    intro fr w
    exact ⟨[], by simp [forLoop, Outcome.world], by simp, rfl, rfl⟩
  | succ fuel ih =>
    intro fr w
    by_cases hge : fr.i ≥ 0
    · have key : forLoop Name b (fuel + 1) fr =
          (loopBody Name b fr).andThen fun fr1 =>
            forLoop Name b fuel { fr1 with i := fr1.i - 1 } := by
        funext w2
        simp only [forLoop, hge, if_true, Prog.andThen]
        cases loopBody Name b fr w2 <;> rfl
      rw [key]
      exact emits_andThen _ _ _ (emits_loopBody Name b fr) (fun fr1 => ih _) w
    · exact ⟨[], by simp [forLoop, hge, Outcome.world], by simp,
        by simp [forLoop, hge, Outcome.world], by simp [forLoop, hge, Outcome.world]⟩

theorem Run_general (Name : H → String) (b : Bool) (args : List String) (w : World H) :
    ∃ t, (∀ e ∈ t, Event.fromLoop b e = true) ∧
      (Run Name b args w).world.serviceOrder = w.serviceOrder ∧
      (Run Name b args w).world.services = w.services ∧
      (((Run Name b args w).isReturned = true ∧
          ∃ names, (Run Name b args w).world.trace =
            w.trace ++ (t ++ [.commonUninstall names b])) ∨
       ((Run Name b args w).isReturned = false ∧
          (Run Name b args w).world.trace = w.trace ++ t)) := by
  obtain ⟨t, h1, h2, h3, h4⟩ := emits_forLoop Name b (w.serviceOrder.length + 1)
    { i := (w.serviceOrder.length : Int) - 1, serviceNames := [] } w
  refine ⟨t, h2, ?_⟩
  unfold Run
  simp only
  cases hl : forLoop Name b (w.serviceOrder.length + 1)
      { i := (w.serviceOrder.length : Int) - 1, serviceNames := [] } w with
  | returned fr w1 =>
    rw [hl] at h1 h3 h4
    simp only [Outcome.world] at h1 h3 h4
    refine ⟨h3, h4, Or.inl ⟨rfl, fr.serviceNames, ?_⟩⟩
    simp [Outcome.world, World.emit, h1]
  | panicked f w1 =>
    rw [hl] at h1 h3 h4
    exact ⟨h3, h4, Or.inr ⟨rfl, h1⟩⟩
  | outOfFuel w1 =>
    rw [hl] at h1 h3 h4
    exact ⟨h3, h4, Or.inr ⟨rfl, h1⟩⟩

/-! ### Fuel -/

theorem andThen_not_outOfFuel {α β : Type} (p : Prog H α) (k : α → Prog H β) (w : World H)
    (hp : ∀ w1, p w ≠ .outOfFuel w1) (hk : ∀ a w1 w2, k a w1 ≠ .outOfFuel w2) :
    ∀ w2, p.andThen k w ≠ .outOfFuel w2 := by
  intro w2
  unfold Prog.andThen
  cases hpw : p w with
  | returned a w1 => exact hk a w1 w2
  | panicked f w1 => simp
  | outOfFuel w1 => exact absurd hpw (hp w1)

theorem loopBody_not_outOfFuel (Name : H → String) (b : Bool) (fr : Frame) (w w2 : World H) :
    loopBody Name b fr w ≠ .outOfFuel w2 := by
  have hidx : ∀ (i : Int) (u u2 : World H),
      (indexServiceOrder i : Prog H ServiceId) u ≠ .outOfFuel u2 := by
    intro i u u2
    unfold indexServiceOrder
    simp only
    split_ifs
    · split <;> simp
    · simp
  have hcu : ∀ id (recv : Option H) (u u2 : World H),
      callUninstall id recv b u ≠ .outOfFuel u2 := by
    intro id recv u u2
    cases recv <;> simp [callUninstall]
  have hcn : ∀ id (recv : Option H) (u u2 : World H),
      callName Name id recv u ≠ .outOfFuel u2 := by
    intro id recv u u2
    cases recv <;> simp [callName]
  unfold loopBody
  refine andThen_not_outOfFuel _ _ _ (fun _ => hidx _ _ _) (fun id u _ => ?_) w2
  refine andThen_not_outOfFuel _ _ _ (fun _ => by simp [servicesAt]) (fun recv u _ => ?_) _
  refine andThen_not_outOfFuel _ _ _ (fun _ => hcu _ _ _ _) (fun _ u _ => ?_) _
  refine andThen_not_outOfFuel _ _ _ (fun _ => hidx _ _ _) (fun id2 u _ => ?_) _
  refine andThen_not_outOfFuel _ _ _ (fun _ => by simp [servicesAt]) (fun recv2 u _ => ?_) _
  refine andThen_not_outOfFuel _ _ _ (fun _ => hcn _ _ _ _) (fun nm u _ => ?_) _
  simp

theorem andThen_returned {α β : Type} (p : Prog H α) (k : α → Prog H β) (w w2 : World H)
    (r : β) (h : p.andThen k w = .returned r w2) :
    ∃ a w1, p w = .returned a w1 ∧ k a w1 = .returned r w2 := by
  unfold Prog.andThen at h
  cases hpw : p w with
  | returned a w1 => rw [hpw] at h; exact ⟨a, w1, rfl, h⟩
  | panicked f w1 => rw [hpw] at h; simp at h
  | outOfFuel w1 => rw [hpw] at h; simp at h

theorem loopBody_returned_i (Name : H → String) (b : Bool) (fr fr1 : Frame) (w w1 : World H)
    (h : loopBody Name b fr w = .returned fr1 w1) : fr1.i = fr.i := by
  unfold loopBody at h
  obtain ⟨_, _, _, h⟩ := andThen_returned _ _ _ _ _ h
  obtain ⟨_, _, _, h⟩ := andThen_returned _ _ _ _ _ h
  obtain ⟨_, _, _, h⟩ := andThen_returned _ _ _ _ _ h
  obtain ⟨_, _, _, h⟩ := andThen_returned _ _ _ _ _ h
  obtain ⟨_, _, _, h⟩ := andThen_returned _ _ _ _ _ h
  obtain ⟨_, _, _, h⟩ := andThen_returned _ _ _ _ _ h
  simp only [Outcome.returned.injEq] at h
  rw [← h.1]

theorem forLoop_not_outOfFuel (Name : H → String) (b : Bool) :
    ∀ (fuel : Nat) (fr : Frame) (w w2 : World H), (fr.i + 1).toNat < fuel →
      forLoop Name b fuel fr w ≠ .outOfFuel w2 := by
  intro fuel
  induction fuel with
  | zero => intro fr w w2 h; omega
  | succ fuel ih =>
    intro fr w w2 h
    rw [forLoop]
    by_cases hge : fr.i ≥ 0
    · simp only [hge, if_true]
      cases hb : loopBody Name b fr w with
      | returned fr1 w1 =>
        have hi := loopBody_returned_i Name b fr fr1 w w1 hb
        exact ih _ _ _ (by simp only [hi]; omega)
      | panicked f w1 => simp
      | outOfFuel w1 => exact absurd hb (loopBody_not_outOfFuel Name b fr w w1)
    · simp [hge]

theorem Run_not_outOfFuel (Name : H → String) (b : Bool) (args : List String) (w w2 : World H) :
    Run Name b args w ≠ .outOfFuel w2 := by
  unfold Run
  simp only
  cases hl : forLoop Name b (w.serviceOrder.length + 1)
      { i := (w.serviceOrder.length : Int) - 1, serviceNames := [] } w with
  | returned fr w1 => simp
  | panicked f w1 => simp
  | outOfFuel w1 =>
    exact absurd hl (forLoop_not_outOfFuel Name b _ _ _ _ (by simp))

/-! ### Independence from the history -/

theorem rebase_emit (w : World H) (t : List (Event H)) (n : Nat) (e : Event H) :
    (w.rebase t n).emit e = (w.emit e).rebase t n := by
  simp [World.rebase, World.emit, List.append_assoc]

theorem framed_andThen {α β : Type} (p : Prog H α) (k : α → Prog H β)
    (hp : p.Framed) (hk : ∀ a, (k a).Framed) : (p.andThen k).Framed := by
  intro t n w
  unfold Prog.andThen
  rw [hp t n w]
  cases p w with
  | returned a w1 => exact hk a t n w1
  | panicked f w1 => rfl
  | outOfFuel w1 => rfl

theorem framed_indexServiceOrder (i : Int) : (indexServiceOrder i : Prog H ServiceId).Framed := by
  intro t n w
  unfold indexServiceOrder
  simp only [rebase_emit]
  split_ifs
  · have hso : (w.rebase t n).serviceOrder = w.serviceOrder := rfl
    rw [hso]
    cases w.serviceOrder[i.toNat]? <;> rfl
  · rfl

theorem framed_servicesAt (id : ServiceId) : (servicesAt id : Prog H (Option H)).Framed := by
  intro t n w
  simp only [servicesAt, rebase_emit]
  rfl

theorem framed_callUninstall (id : ServiceId) (recv : Option H) (b : Bool) :
    (callUninstall id recv b : Prog H Unit).Framed := by
  intro t n w
  cases recv with
  | none => rfl
  | some h => simp only [callUninstall, rebase_emit]; rfl

theorem framed_callName (Name : H → String) (id : ServiceId) (recv : Option H) :
    (callName Name id recv : Prog H String).Framed := by
  intro t n w
  cases recv with
  | none => rfl
  | some h => simp only [callName, rebase_emit]; rfl

theorem framed_loopBody (Name : H → String) (b : Bool) (fr : Frame) :
    (loopBody Name b fr : Prog H Frame).Framed := by
  unfold loopBody
  refine framed_andThen _ _ (framed_indexServiceOrder _) fun id => ?_
  refine framed_andThen _ _ (framed_servicesAt _) fun recv => ?_
  refine framed_andThen _ _ (framed_callUninstall _ _ _) fun _ => ?_
  refine framed_andThen _ _ (framed_indexServiceOrder _) fun id2 => ?_
  refine framed_andThen _ _ (framed_servicesAt _) fun recv2 => ?_
  refine framed_andThen _ _ (framed_callName _ _ _) fun nm => ?_
  intro t n w
  simp [World.rebase, Outcome.rebase, Nat.add_assoc]

theorem framed_forLoop (Name : H → String) (b : Bool) :
    ∀ (fuel : Nat) (fr : Frame), (forLoop Name b fuel fr : Prog H Frame).Framed := by
  intro fuel
  induction fuel with
  | zero => intro fr t n w; rfl
  | succ fuel ih =>
    intro fr t n w
    rw [forLoop]
    by_cases hge : fr.i ≥ 0
    · simp only [hge, if_true]
      rw [framed_loopBody Name b fr t n w]
      cases loopBody Name b fr w with
      | returned fr1 w1 => exact ih _ t n w1
      | panicked f w1 => rfl
      | outOfFuel w1 => rfl
    · simp only [hge, if_false]
      rfl

theorem framed_Run (Name : H → String) (b : Bool) (args : List String) :
    (Run Name b args : Prog H Unit).Framed := by
  intro t n w
  unfold Run
  simp only
  have hso : (w.rebase t n).serviceOrder = w.serviceOrder := rfl
  rw [hso, framed_forLoop Name b _ _ t n w]
  cases forLoop Name b (w.serviceOrder.length + 1)
      { i := (w.serviceOrder.length : Int) - 1, serviceNames := [] } w with
  | returned fr w1 => simp only [Outcome.rebase, rebase_emit]
  | panicked f w1 => rfl
  | outOfFuel w1 => rfl

/-- The world with the same registry and no history. -/
theorem World.eq_rebase_fresh (w : World H) :
    w = (World.mk w.serviceOrder w.services [] 0).rebase w.trace w.iterations := by
  cases w
  simp [World.rebase]

theorem Outcome.world_rebase {α : Type} (o : Outcome H α) (t : List (Event H)) (n : Nat) :
    (o.rebase t n).world = o.world.rebase t n := by
  cases o <;> rfl

/-- What a run issues is what the run from the same registry without history
leaves in the trace. -/
theorem issued_Run (Name : H → String) (b : Bool) (args : List String) (w : World H) :
    issued w (Run Name b args w).world =
      (Run Name b args (World.mk w.serviceOrder w.services [] 0)).world.trace := by
  have h := framed_Run Name b args w.trace w.iterations (World.mk w.serviceOrder w.services [] 0)
  rw [← World.eq_rebase_fresh w] at h
  rw [h, Outcome.world_rebase]
  simp [issued, World.rebase]

/-! ### Shared consequences -/

theorem issued_of_trace_eq (w w1 : World H) (t : List (Event H))
    (h : w1.trace = w.trace ++ t) : issued w w1 = t := by
  simp [issued, h]

theorem issued_Run_wellFormed (Name : H → String) (b : Bool) (args : List String) (w : World H)
    (hw : w.wellFormed) :
    issued w (Run Name b args w).world =
      loopTrace w.serviceOrder w.services b w.serviceOrder.length ++
        [.commonUninstall
          ((w.serviceOrder.reverse.filterMap w.services).map Name) b] := by
  rw [Run_spec Name b args w hw, loopNames_eq, List.take_length]
  exact issued_of_trace_eq _ _ _ rfl

theorem loopTrace_no_finalize (order : List ServiceId) (services : ServiceId → Option H)
    (b : Bool) (k : Nat) (e : Event H) (he : e ∈ loopTrace order services b k) :
    e.isFinalize = false := by
  obtain ⟨j, id, h, _, _, _, hm⟩ := mem_loopTrace order services b k e he
  simp only [List.mem_cons, List.mem_singleton, List.not_mem_nil, or_false] at hm
  rcases hm with rfl | rfl | rfl | rfl <;> rfl

theorem fromLoop_removeDataArg (b b1 : Bool) (e : Event H) (h : e.fromLoop b = true)
    (ha : e.removeDataArg = some b1) : b1 = b := by
  cases e <;> simp_all [Event.fromLoop, Event.removeDataArg]

theorem fromLoop_not_finalize (b : Bool) (e : Event H) (h : e.fromLoop b = true) :
    e.isFinalize = false := by
  cases e <;> simp_all [Event.fromLoop, Event.isFinalize]

theorem Run_removeDataArg (Name : H → String) (b : Bool) (args : List String) (w : World H)
    (e : Event H) (he : e ∈ issued w (Run Name b args w).world) (b1 : Bool)
    (ha : e.removeDataArg = some b1) : b1 = b := by
  obtain ⟨t, h1, _, _, h4⟩ := Run_general Name b args w
  rcases h4 with ⟨_, names, ht⟩ | ⟨_, ht⟩
  · rw [issued_of_trace_eq _ _ _ ht] at he
    rcases List.mem_append.mp he with he | he
    · exact fromLoop_removeDataArg b b1 e (h1 e he) ha
    · rw [List.mem_singleton.mp he] at ha
      simpa [Event.removeDataArg] using ha.symm
  · rw [issued_of_trace_eq _ _ _ ht] at he
    exact fromLoop_removeDataArg b b1 e (h1 e he) ha

theorem countP_isFinalize_fromLoop (b : Bool) (t : List (Event H))
    (ht : ∀ e ∈ t, Event.fromLoop b e = true) : t.countP Event.isFinalize = 0 := by
  rw [List.countP_eq_zero]
  intro e he
  simp [fromLoop_not_finalize b e (ht e he)]

theorem kth_of_map_some {α β : Type} (f : α → Option β) (order : List α) (l : List β)
    (h : l.map some = order.reverse.map f) (k : Nat) (hk : k < order.length) :
    ∃ a v, order[order.length - 1 - k]? = some a ∧ f a = some v ∧ l[k]? = some v := by
  have hlen : l.length = order.length := by
    have := congrArg List.length h
    simpa using this
  have hk2 : order.length - 1 - k < order.length := by omega
  have hget := congrArg (fun x => x[k]?) h
  simp only [List.getElem?_map, List.getElem?_reverse hk,
    List.getElem?_eq_getElem hk2, List.getElem?_eq_getElem (hlen ▸ hk),
    Option.map_some'] at hget
  refine ⟨order[order.length - 1 - k], l[k], List.getElem?_eq_getElem hk2, ?_,
    List.getElem?_eq_getElem (hlen ▸ hk)⟩
  exact (Option.some.inj hget).symm

theorem execute_removeDataArg (Name : H → String) (inv : Invocation) (w : World H)
    (e : Event H) (he : e ∈ issued w (execute (cleanCmd Name) inv w).world) (b1 : Bool)
    (ha : e.removeDataArg = some b1) : b1 = inv.all.getD false := by
  unfold execute cleanCmd MaximumNArgs at he
  simp only at he
  split_ifs at he with hgt
  · simp [issued, CmdResult.world] at he
  · exact Run_removeDataArg Name _ inv.args w e he b1 ha

/-! ### A run returns only on a registry that satisfies the invariant -/

theorem loopBody_returned_handle (Name : H → String) (b : Bool) (fr fr1 : Frame)
    (w w1 : World H) (h : loopBody Name b fr w = .returned fr1 w1) :
    ∃ id hd, w.serviceOrder[fr.i.toNat]? = some id ∧ w.services id = some hd := by
  unfold loopBody at h
  obtain ⟨id, u1, h1, h⟩ := andThen_returned _ _ _ _ _ h
  obtain ⟨recv, u2, h2, h⟩ := andThen_returned _ _ _ _ _ h
  obtain ⟨_, u3, h3, _⟩ := andThen_returned _ _ _ _ _ h
  have hid : w.serviceOrder[fr.i.toNat]? = some id ∧ u1 = w.emit (.orderIndex fr.i) := by
    unfold indexServiceOrder at h1
    simp only at h1
    split_ifs at h1
    · cases hg : w.serviceOrder[fr.i.toNat]? with
      | none => rw [hg] at h1; simp at h1
      | some id1 =>
        rw [hg] at h1
        simp only [Outcome.returned.injEq] at h1
        exact ⟨by rw [h1.1], h1.2.symm⟩
  have hrecv : recv = w.services id := by
    simp only [servicesAt, Outcome.returned.injEq] at h2
    rw [← h2.1, hid.2]
    rfl
  cases hr : recv with
  | none => rw [hr] at h3; simp [callUninstall] at h3
  | some hd => exact ⟨id, hd, hid.1, by rw [← hrecv, hr]⟩

theorem forLoop_returned_handles (Name : H → String) (b : Bool) :
    ∀ (fuel : Nat) (fr fr1 : Frame) (w w1 : World H),
      forLoop Name b fuel fr w = .returned fr1 w1 →
      ∀ (j : Nat) (id : ServiceId), (j : Int) ≤ fr.i → w.serviceOrder[j]? = some id →
        (w.services id).isSome = true := by
  intro fuel
  induction fuel with
  | zero => intro fr fr1 w w1 h; simp [forLoop] at h
  | succ fuel ih =>
    intro fr fr1 w w1 h j id hj hid
    rw [forLoop] at h
    have hge : fr.i ≥ 0 := le_trans (Int.natCast_nonneg j) hj
    simp only [hge, if_true] at h
    cases hb : loopBody Name b fr w with
    | returned fr2 w2 =>
      rw [hb] at h
      simp only at h
      have hi := loopBody_returned_i Name b fr fr2 w w2 hb
      obtain ⟨_, _, _, h3, h4⟩ := emits_loopBody Name b fr w
      rw [hb] at h3 h4
      simp only [Outcome.world] at h3 h4
      by_cases hjeq : (j : Int) = fr.i
      · obtain ⟨id2, hd, g1, g2⟩ := loopBody_returned_handle Name b fr fr2 w w2 hb
        have hjn : fr.i.toNat = j := by rw [← hjeq]; exact Int.toNat_natCast j
        rw [hjn, hid] at g1
        rw [Option.some.inj g1, g2]
        rfl
      · have := ih _ fr1 w2 w1 h j id (by simp only [hi]; omega) (by rw [h3]; exact hid)
        rw [h4] at this
        exact this
    | panicked f w2 => rw [hb] at h; simp at h
    | outOfFuel w2 => rw [hb] at h; simp at h

/-- The run returns exactly on the registries that satisfy the invariant. -/
theorem Run_isReturned_iff_wellFormed (Name : H → String) (b : Bool) (args : List String)
    (w : World H) : (Run Name b args w).isReturned = true ↔ w.wellFormed := by
  constructor
  · intro h id hid
    obtain ⟨j, hj⟩ := List.mem_iff_getElem?.mp hid
    have hlt : j < w.serviceOrder.length := by
      by_contra hc
      rw [List.getElem?_eq_none (Nat.le_of_not_lt hc)] at hj
      simp at hj
    unfold Run at h
    simp only at h
    cases hl : forLoop Name b (w.serviceOrder.length + 1)
        { i := (w.serviceOrder.length : Int) - 1, serviceNames := [] } w with
    | returned fr w1 =>
      exact forLoop_returned_handles Name b _ _ fr w w1 hl j id
        (by simp only; omega) hj
    | panicked f w1 => rw [hl] at h; simp [Outcome.isReturned] at h
    | outOfFuel w1 => rw [hl] at h; simp [Outcome.isReturned] at h
  · intro hw
    rw [Run_spec Name b args w hw]
    rfl

/-- On a registry that violates the invariant the run makes no call of
`common.Uninstall`. -/
theorem Run_no_finalize_of_not_wellFormed (Name : H → String) (b : Bool) (args : List String)
    (w : World H) (hw : ¬ w.wellFormed) :
    (issued w (Run Name b args w).world).countP Event.isFinalize = 0 := by
  obtain ⟨t, h1, _, _, h4⟩ := Run_general Name b args w
  rcases h4 with ⟨hr, _⟩ | ⟨_, ht⟩
  · exact absurd ((Run_isReturned_iff_wellFormed Name b args w).mp hr) hw
  · rw [issued_of_trace_eq _ _ _ ht]
    exact countP_isFinalize_fromLoop b t h1

end Lemmas

/-! ## The claims -/

/-- C1: on a registry in which every identifier of `serviceOrder` has a handle,
the handles on which `Run` calls `Uninstall` are, in call order, the handles of
`serviceOrder` reversed: there are `len(serviceOrder)` such calls and the k-th
call is on `services[serviceOrder[len-1-k]]`. -/
theorem clean_uninstalls_in_reverse_order {H : Type} (Name : H → String) (b : Bool)
    (args : List String) (w : World H) (hw : w.wellFormed) :
    ((issued w (Run Name b args w).world).filterMap Event.uninstallTarget).map some =
        w.serviceOrder.reverse.map w.services ∧
      ((issued w (Run Name b args w).world).filterMap Event.uninstallTarget).length =
        w.serviceOrder.length ∧
      ∀ k, k < w.serviceOrder.length →
        ∃ id h, w.serviceOrder[w.serviceOrder.length - 1 - k]? = some id ∧
          w.services id = some h ∧
          ((issued w (Run Name b args w).world).filterMap Event.uninstallTarget)[k]? =
            some h := by
  have hmap : ((issued w (Run Name b args w).world).filterMap Event.uninstallTarget).map some =
      w.serviceOrder.reverse.map w.services := by
    rw [issued_Run_wellFormed Name b args w hw, List.filterMap_append, loopTrace_targets,
      List.take_length]
    simp only [List.filterMap_cons, Event.uninstallTarget, List.filterMap_nil, List.append_nil]
    exact filterMap_map_some_of_forall _ _ (fun a ha => hw a (List.mem_reverse.mp ha))
  refine ⟨hmap, ?_, ?_⟩
  · have := congrArg List.length hmap
    simpa using this
  · intro k hk
    exact kth_of_map_some _ _ _ hmap k hk

/-- C1, install order `[A, B, C]`: the uninstall order is `[C, B, A]`. -/
theorem clean_uninstalls_in_reverse_order_witness :
    abcWorld.wellFormed ∧
      ((issued abcWorld (Run Svc.Name true [] abcWorld).world).filterMap
          Event.uninstallTarget).map some = [some Svc.C, some Svc.B, some Svc.A] :=
  ⟨by decide,
    (clean_uninstalls_in_reverse_order Svc.Name true [] abcWorld (by decide)).1.trans
      (by decide)⟩

/-- C2: on a registry in which every identifier of `serviceOrder` has a handle,
`Run` calls `common.Uninstall` with one name list, which is `serviceOrder`
reversed with every identifier `id` replaced by `services[id].Name()`: it has
length `len(serviceOrder)` and its k-th element is the name of
`services[serviceOrder[len-1-k]]`. -/
theorem clean_passes_reversed_names {H : Type} (Name : H → String) (b : Bool)
    (args : List String) (w : World H) (hw : w.wellFormed) :
    ∃ names, (issued w (Run Name b args w).world).filterMap Event.finalizeNames = [names] ∧
      names.map some = w.serviceOrder.reverse.map (fun id => (w.services id).map Name) ∧
      names.length = w.serviceOrder.length ∧
      ∀ k, k < w.serviceOrder.length →
        ∃ id h, w.serviceOrder[w.serviceOrder.length - 1 - k]? = some id ∧
          w.services id = some h ∧ names[k]? = some (Name h) := by
  have hfin : (issued w (Run Name b args w).world).filterMap Event.finalizeNames =
      [(w.serviceOrder.reverse.filterMap w.services).map Name] := by
    rw [issued_Run_wellFormed Name b args w hw, List.filterMap_append]
    have hnone : (loopTrace w.serviceOrder w.services b w.serviceOrder.length).filterMap
        Event.finalizeNames = [] := by
      rw [List.filterMap_eq_nil_iff]
      intro e he
      have := loopTrace_no_finalize _ _ _ _ e he
      cases e <;> simp_all [Event.isFinalize, Event.finalizeNames]
    rw [hnone]
    simp [Event.finalizeNames]
  have hmap : ((w.serviceOrder.reverse.filterMap w.services).map Name).map some =
      w.serviceOrder.reverse.map (fun id => (w.services id).map Name) := by
    have h1 := filterMap_map_some_of_forall w.services w.serviceOrder.reverse
      (fun a ha => hw a (List.mem_reverse.mp ha))
    have h2 := congrArg (List.map (Option.map Name)) h1
    simpa [List.map_map, Function.comp_def] using h2
  refine ⟨_, hfin, hmap, ?_, ?_⟩
  · have := congrArg List.length hmap
    simpa using this
  · intro k hk
    obtain ⟨id, v, h1, h2, h3⟩ := kth_of_map_some _ _ _ hmap k hk
    obtain ⟨h, hh⟩ := Option.isSome_iff_exists.mp (hw id (List.mem_iff_getElem?.mpr ⟨_, h1⟩))
    refine ⟨id, h, h1, hh, ?_⟩
    rw [h3]
    simp only [hh, Option.map_some'] at h2
    rw [← Option.some.inj h2]

/-- C2, install order `[A, B, C]`: the name list is `["C", "B", "A"]`. -/
theorem clean_passes_reversed_names_witness :
    abcWorld.wellFormed ∧
      ∃ names, (issued abcWorld (Run Svc.Name false [] abcWorld).world).filterMap
          Event.finalizeNames = [names] ∧
        names.map some = [some "C", some "B", some "A"] :=
  ⟨by decide,
    (clean_passes_reversed_names Svc.Name false [] abcWorld (by decide)).imp
      fun _ h => ⟨h.1, h.2.1.trans (by decide)⟩⟩

/-- C3: for every registry and every value `b` given to the `--all` flag, the
command built by `cleanCmd` hands `b` to the `Run` closure as `removeData`, and
every `Uninstall` call on a service and every `common.Uninstall` call of the
invocation has exactly `b` as its `removeData` argument; the same holds of `Run`
itself, which calls `common.Uninstall` at most once. -/
theorem clean_passes_flag_unchanged {H : Type} (Name : H → String) (b : Bool)
    (args : List String) (w : World H) :
    (cleanCmd Name).Run b args w = Run Name b args w ∧
      (∀ e ∈ issued w (execute (cleanCmd Name) (Invocation.mk args (some b)) w).world,
        ∀ b1, e.removeDataArg = some b1 → b1 = b) ∧
      (args.length ≤ 1 →
        execute (cleanCmd Name) (Invocation.mk args (some b)) w =
          .ran (Run Name b args w)) ∧
      (∀ e ∈ issued w (Run Name b args w).world, ∀ b1, e.removeDataArg = some b1 → b1 = b) ∧
      (issued w (Run Name b args w).world).countP Event.isFinalize ≤ 1 := by
  refine ⟨rfl, ?_, ?_, fun e he b1 ha => Run_removeDataArg Name b args w e he b1 ha, ?_⟩
  · intro e he b1 ha
    have := execute_removeDataArg Name (Invocation.mk args (some b)) w e he b1 ha
    simpa using this
  · intro h
    have hgt : ¬ args.length > 1 := by omega
    simp [execute, cleanCmd, MaximumNArgs, hgt]
  · obtain ⟨t, h1, _, _, h4⟩ := Run_general Name b args w
    rcases h4 with ⟨_, names, ht⟩ | ⟨_, ht⟩
    · rw [issued_of_trace_eq _ _ _ ht, List.countP_append, countP_isFinalize_fromLoop b t h1]
      simp [Event.isFinalize]
    · rw [issued_of_trace_eq _ _ _ ht, countP_isFinalize_fromLoop b t h1]
      exact Nat.zero_le 1

/-- C3 on the registry `[A, B, C]`: invoked with `--all` given as `true` the
four calls that take a `removeData` argument all receive `true`, and given as
`false` they all receive `false`. -/
theorem clean_passes_flag_unchanged_witness :
    (issued abcWorld
        (execute (cleanCmd Svc.Name) (Invocation.mk [] (some true)) abcWorld).world).filterMap
        Event.removeDataArg = [true, true, true, true] ∧
      (∀ e ∈ issued abcWorld
          (execute (cleanCmd Svc.Name) (Invocation.mk [] (some true)) abcWorld).world,
        ∀ b1, e.removeDataArg = some b1 → b1 = true) ∧
      (([] : List String).length ≤ 1 ∧
        execute (cleanCmd Svc.Name) (Invocation.mk [] (some true)) abcWorld =
          .ran (Run Svc.Name true [] abcWorld)) ∧
      (issued abcWorld
        (execute (cleanCmd Svc.Name) (Invocation.mk [] (some false)) abcWorld).world).filterMap
        Event.removeDataArg = [false, false, false, false] ∧
      (∀ e ∈ issued abcWorld
          (execute (cleanCmd Svc.Name) (Invocation.mk [] (some false)) abcWorld).world,
        ∀ b1, e.removeDataArg = some b1 → b1 = false) :=
  ⟨by decide, (clean_passes_flag_unchanged Svc.Name true [] abcWorld).2.1,
    ⟨by decide, (clean_passes_flag_unchanged Svc.Name true [] abcWorld).2.2.1 (by decide)⟩,
    by decide, (clean_passes_flag_unchanged Svc.Name false [] abcWorld).2.1⟩

/-- C4: the validator of the `clean` command accepts a positional-argument list
exactly when it has at most one element.  With two or more arguments the
invocation is rejected with the argument-count error, `Run` is not executed and
nothing is added to the trace; with at most one argument `Run` is executed. -/
theorem clean_rejects_more_than_one_arg {H : Type} (Name : H → String) (inv : Invocation)
    (w : World H) :
    ((cleanCmd Name).Args inv.args = .ok () ↔ inv.args.length ≤ 1) ∧
      (2 ≤ inv.args.length →
        execute (cleanCmd Name) inv w = .rejected (.tooManyArgs 1 inv.args.length) w ∧
          issued w (execute (cleanCmd Name) inv w).world = []) ∧
      (inv.args.length ≤ 1 →
        execute (cleanCmd Name) inv w =
          .ran (Run Name (inv.all.getD false) inv.args w)) := by
  refine ⟨?_, ?_, ?_⟩
  · unfold cleanCmd MaximumNArgs
    simp only
    split_ifs with h
    · simp only [reduceCtorEq, false_iff]; omega
    · simp only [true_iff]; omega
  · intro h
    have hgt : inv.args.length > 1 := h
    have he : execute (cleanCmd Name) inv w =
        .rejected (.tooManyArgs 1 inv.args.length) w := by
      simp [execute, cleanCmd, MaximumNArgs, hgt]
    rw [he]
    exact ⟨rfl, by simp [issued, CmdResult.world]⟩
  · intro h
    have hgt : ¬ inv.args.length > 1 := by omega
    simp [execute, cleanCmd, MaximumNArgs, hgt]

/-- C4 on the registry `[A, B, C]`: two arguments are rejected and leave the
trace empty; one argument lets `Run` execute. -/
theorem clean_rejects_more_than_one_arg_witness :
    (2 ≤ (Invocation.mk ["x", "y"] (some true)).args.length ∧
      execute (cleanCmd Svc.Name) (Invocation.mk ["x", "y"] (some true)) abcWorld =
        .rejected (.tooManyArgs 1 2) abcWorld ∧
      issued abcWorld
        (execute (cleanCmd Svc.Name) (Invocation.mk ["x", "y"] (some true)) abcWorld).world =
          []) ∧
    ((Invocation.mk ["x"] (some true)).args.length ≤ 1 ∧
      execute (cleanCmd Svc.Name) (Invocation.mk ["x"] (some true)) abcWorld =
        .ran (Run Svc.Name true ["x"] abcWorld)) :=
  ⟨⟨by decide,
      (clean_rejects_more_than_one_arg Svc.Name (Invocation.mk ["x", "y"] (some true))
        abcWorld).2.1 (by decide)⟩,
    ⟨by decide,
      (clean_rejects_more_than_one_arg Svc.Name (Invocation.mk ["x"] (some true))
        abcWorld).2.2 (by decide)⟩⟩

/-- C5: with an empty `serviceOrder`, `Run` returns normally after a single
operation, the call `common.Uninstall([], removeData)`: it makes no call on a
service and reads neither `serviceOrder[i]` nor `services[id]`. -/
theorem clean_empty_registry {H : Type} (Name : H → String) (b : Bool) (args : List String)
    (w : World H) (h : w.serviceOrder = []) :
    Run Name b args w = .returned () (w.emit (.commonUninstall [] b)) ∧
      issued w (Run Name b args w).world = [.commonUninstall [] b] ∧
      (∀ e ∈ issued w (Run Name b args w).world,
        e.isServiceCall = false ∧ e.isRegistryRead = false) ∧
      (issued w (Run Name b args w).world).countP Event.isFinalize = 1 := by
  have hrun : Run Name b args w = .returned () (w.emit (.commonUninstall [] b)) := by
    unfold Run
    simp [h, forLoop]
  have hiss : issued w (Run Name b args w).world = [.commonUninstall [] b] := by
    rw [hrun]
    exact issued_of_trace_eq _ _ _ rfl
  refine ⟨hrun, hiss, ?_, ?_⟩
  · intro e he
    rw [hiss, List.mem_singleton] at he
    subst he
    exact ⟨rfl, rfl⟩
  · rw [hiss]
    rfl

/-- C5 on the empty registry. -/
theorem clean_empty_registry_witness :
    emptyWorld.serviceOrder = [] ∧
      issued emptyWorld (Run Svc.Name true ["x"] emptyWorld).world =
        [.commonUninstall [] true] :=
  ⟨rfl, (clean_empty_registry Svc.Name true ["x"] emptyWorld rfl).2.1⟩

/-- C6 as stated fails: on the registry whose only identifier has no handle,
`Run` panics at the method call on the nil handle and `common.Uninstall` is
called zero times, not once. -/
theorem clean_finalize_absent_after_panic :
    (Run Svc.Name false [] danglingWorld).isReturned = false ∧
      (issued danglingWorld (Run Svc.Name false [] danglingWorld).world).countP
        Event.isFinalize = 0 ∧
      ¬ (issued danglingWorld (Run Svc.Name false [] danglingWorld).world).countP
        Event.isFinalize = 1 := by
  decide

/-- C6, amended: on a registry in which every identifier of `serviceOrder` has a
handle (the invariant of the data model), `Run` returns and calls
`common.Uninstall` exactly once, as its last operation: no call of
`common.Uninstall` occurs among the operations before it, and every `Uninstall`
and `Name()` call on a service is among the operations before it. -/
theorem clean_finalize_once_last {H : Type} (Name : H → String) (b : Bool)
    (args : List String) (w : World H) (hw : w.wellFormed) :
    (Run Name b args w).isReturned = true ∧
      (issued w (Run Name b args w).world).countP Event.isFinalize = 1 ∧
      ∃ before names,
        issued w (Run Name b args w).world = before ++ [.commonUninstall names b] ∧
        (∀ e ∈ before, e.isFinalize = false) ∧
        (∀ e ∈ issued w (Run Name b args w).world, e.isServiceCall = true → e ∈ before) := by
  have hiss := issued_Run_wellFormed Name b args w hw
  have hnf := loopTrace_no_finalize w.serviceOrder w.services b w.serviceOrder.length
  refine ⟨by rw [Run_spec Name b args w hw]; rfl, ?_, _, _, hiss, hnf, ?_⟩
  · rw [hiss, List.countP_append]
    have h0 : (loopTrace w.serviceOrder w.services b w.serviceOrder.length).countP
        Event.isFinalize = 0 := by
      rw [List.countP_eq_zero]
      intro e he
      simp [hnf e he]
    rw [h0]
    rfl
  · intro e he hs
    rw [hiss] at he
    rcases List.mem_append.mp he with he | he
    · exact he
    · rw [List.mem_singleton.mp he] at hs
      simp [Event.isServiceCall] at hs

/-- C6, amended, on the registry `[A, B, C]`: the last of the 19 operations is
the one call of `common.Uninstall`. -/
theorem clean_finalize_once_last_witness :
    abcWorld.wellFormed ∧
      (issued abcWorld (Run Svc.Name true [] abcWorld).world).getLast? =
        some (.commonUninstall ["C", "B", "A"] true) ∧
      (issued abcWorld (Run Svc.Name true [] abcWorld).world).countP Event.isFinalize = 1 :=
  ⟨by decide, by decide,
    (clean_finalize_once_last Svc.Name true [] abcWorld (by decide)).2.1⟩

/-- C7: the default of `--all` is `false`.  When the flag does not occur on the
command line, every `Uninstall` call on a service and the `common.Uninstall`
call receive `removeData = false`; a call receives `true` only when `--all` was
given with the value `true`. -/
theorem clean_flag_default_false {H : Type} (Name : H → String) (inv : Invocation)
    (w : World H) :
    (cleanCmd Name).allDefault = false ∧
      (inv.all = none →
        ∀ e ∈ issued w (execute (cleanCmd Name) inv w).world,
          ∀ b1, e.removeDataArg = some b1 → b1 = false) ∧
      (∀ e ∈ issued w (execute (cleanCmd Name) inv w).world,
        e.removeDataArg = some true → inv.all = some true) := by
  refine ⟨rfl, ?_, ?_⟩
  · intro hnone e he b1 ha
    have := execute_removeDataArg Name inv w e he b1 ha
    simpa [hnone] using this
  · intro e he ha
    have := execute_removeDataArg Name inv w e he true ha
    cases hall : inv.all with
    | none => simp [hall] at this
    | some v => simp only [hall, Option.getD_some] at this; rw [this]

/-- C7 on the registry `[A, B, C]`, invoked without `--all`: the four calls that
take a `removeData` argument all receive `false`. -/
theorem clean_flag_default_false_witness :
    (Invocation.mk [] none).all = none ∧
      (issued abcWorld (execute (cleanCmd Svc.Name) (Invocation.mk [] none) abcWorld).world).filterMap
          Event.removeDataArg = [false, false, false, false] ∧
      ∀ e ∈ issued abcWorld (execute (cleanCmd Svc.Name) (Invocation.mk [] none) abcWorld).world,
        ∀ b1, e.removeDataArg = some b1 → b1 = false :=
  ⟨rfl, by decide,
    (clean_flag_default_false Svc.Name (Invocation.mk [] none) abcWorld).2.1 rfl⟩

/-- C8: on a registry in which every identifier of `serviceOrder` has a handle,
`Run` returns without a fault and without running out of fuel: every index `i`
of an expression `serviceOrder[i]` it evaluates satisfies
`0 <= i < len(serviceOrder)`, every read `services[id]` it performs finds a
handle, and the loop body is executed exactly `len(serviceOrder)` times. -/
theorem clean_never_faults {H : Type} (Name : H → String) (b : Bool) (args : List String)
    (w : World H) (hw : w.wellFormed) :
    (Run Name b args w).isReturned = true ∧
      (∀ i, Event.orderIndex i ∈ issued w (Run Name b args w).world →
        0 ≤ i ∧ i < w.serviceOrder.length) ∧
      (∀ id, Event.servicesLookup id ∈ issued w (Run Name b args w).world →
        (w.services id).isSome = true) ∧
      (Run Name b args w).world.iterations = w.iterations + w.serviceOrder.length := by
  have hiss := issued_Run_wellFormed Name b args w hw
  refine ⟨by rw [Run_spec Name b args w hw]; rfl, ?_, ?_, by rw [Run_spec Name b args w hw]; rfl⟩
  · intro i hi
    rw [hiss] at hi
    rcases List.mem_append.mp hi with hi | hi
    · obtain ⟨j, id, h, hj, hid, _, hm⟩ := mem_loopTrace _ _ _ _ _ hi
      simp only [List.mem_cons, Event.orderIndex.injEq, reduceCtorEq, List.mem_singleton,
        List.not_mem_nil, or_false] at hm
      subst hm
      exact ⟨Int.natCast_nonneg j, by exact_mod_cast hj⟩
    · simp at hi
  · intro id hi
    rw [hiss] at hi
    rcases List.mem_append.mp hi with hi | hi
    · obtain ⟨j, id1, h, _, _, hs, hm⟩ := mem_loopTrace _ _ _ _ _ hi
      simp only [List.mem_cons, Event.servicesLookup.injEq, reduceCtorEq, List.mem_singleton,
        List.not_mem_nil, or_false, false_or] at hm
      subst hm
      simp [hs]
    · simp at hi

/-- C8 on the registry `[A, B, C]`: `Run` returns after three iterations, having
evaluated `serviceOrder[i]` at `i = 2, 1, 0`. -/
theorem clean_never_faults_witness :
    abcWorld.wellFormed ∧
      (Run Svc.Name false [] abcWorld).isReturned = true ∧
      (Run Svc.Name false [] abcWorld).world.iterations = 3 ∧
      (issued abcWorld (Run Svc.Name false [] abcWorld).world).filter Event.isRegistryRead =
        [.orderIndex 2, .servicesLookup "c", .orderIndex 2, .servicesLookup "c",
         .orderIndex 1, .servicesLookup "b", .orderIndex 1, .servicesLookup "b",
         .orderIndex 0, .servicesLookup "a", .orderIndex 0, .servicesLookup "a"] :=
  ⟨by decide, (clean_never_faults Svc.Name false [] abcWorld (by decide)).1,
    (clean_never_faults Svc.Name false [] abcWorld (by decide)).2.2.2, by decide⟩

/-- C9: `Run` does not use its positional arguments: for every registry and
flag value, any two argument lists (in particular any two accepted ones, of
length 0 or 1) give the same outcome, hence the same sequence of `Uninstall`
calls on services and the same `common.Uninstall` call. -/
theorem clean_ignores_positional_args {H : Type} (Name : H → String) (b : Bool)
    (args1 args2 : List String) (w : World H) :
    Run Name b args1 w = Run Name b args2 w ∧
      (issued w (Run Name b args1 w).world).filter
          (fun e => e.isServiceCall || e.isFinalize) =
        (issued w (Run Name b args2 w).world).filter
          (fun e => e.isServiceCall || e.isFinalize) :=
  ⟨rfl, rfl⟩

/-- C10: `Run` leaves `serviceOrder` and `services` as they were, whatever the
outcome; a second run started where the first one ended performs the same
sequence of operations as the first, in particular the same `Uninstall` calls on
services and the same name list for `common.Uninstall`. -/
theorem clean_reads_registry_only {H : Type} (Name : H → String) (b : Bool)
    (args1 args2 : List String) (w : World H) :
    (Run Name b args1 w).world.serviceOrder = w.serviceOrder ∧
      (Run Name b args1 w).world.services = w.services ∧
      issued (Run Name b args1 w).world
          (Run Name b args2 (Run Name b args1 w).world).world =
        issued w (Run Name b args1 w).world := by
  obtain ⟨_, _, h2, h3, _⟩ := Run_general Name b args1 w
  refine ⟨h2, h3, ?_⟩
  rw [issued_Run Name b args2 (Run Name b args1 w).world, issued_Run Name b args1 w, h2, h3]
  rfl

end YbaInstaller
